import Mathlib

/-!
Verification of `minesweeper.py`.

A shallow embedding of the Minesweeper AI source (`src/minesweeper.py`) into
Lean 4, together with theorems settling the specification claims.

Modelling conventions:
* A `cell` is a pair of Python ints, embedded as `Int × Int` (the source
  constructs tuples such as `(x-1, y-1)` with no bounds check, so negative
  coordinates occur).
* Python `set` objects of cells are embedded as `Finset Cell`.
* The `Sentence.mines` and `Sentence.safe` sets may contain non-cell objects
  in the source: `set.remove` returns `None` (added by `mark_mine`/`mark_safe`)
  and `known_mines`/`known_safes` add a *generator object* (`self.mines.add(i
  for i in self.cells)`).  Their element type is therefore embedded as `PyObj`
  with constructors for a cell, for `None`, and for a generator object.
* Mutation is embedded as explicit state passing.  All sentence objects owned
  by one `MinesweeperAI` are only ever mutated uniformly (a marking call maps
  over the whole `knowledge` list), so object identity is represented by list
  position; in particular the `new_sentence` alias inside `add_knowledge` is
  represented by its index into `knowledge`.
* The `for sentence in self.knowledge` loop in `add_knowledge` iterates by
  index over a list that the body itself appends to (Python list iterators see
  elements appended during iteration), so it is embedded as a fuel-indexed
  step function on a loop state carrying the current index.
* `random.choice` is embedded with an oracle index `k` (choice of
  `potential_moves[k % len]`); Python set iteration order (unspecified,
  hash-based) is embedded as one fixed enumeration order, `cellList`
  (row-major sorting).
-/

/-- A board cell: a pair of Python integers. -/
abbrev Cell : Type := Int × Int

/-- Python objects that can live in the `mines` / `safe` sets of a
`Sentence`: an actual cell, `None` (the return value of `set.remove`), or a
generator object. -/
inductive PyObj : Type where
  | objCell (c : Cell) : PyObj
  | objNone : PyObj
  | objGen : PyObj
deriving DecidableEq, Repr

/-- The `Sentence` class: `cells` and `count` as in the source, plus the
internal `mines` and `safe` sets (which in the source accumulate `None`s and
generator objects, hence `Finset PyObj`). -/
structure Sentence : Type where
  cells : Finset Cell
  count : Int
  mines : Finset PyObj
  safe : Finset PyObj
deriving DecidableEq

/-- Row-major order on cells, used as the fixed enumeration order standing in
for Python's unspecified set iteration order. -/
def cellLE (a b : Cell) : Prop :=
  a.1 < b.1 ∨ (a.1 = b.1 ∧ a.2 ≤ b.2)

instance : DecidableRel cellLE := by
  intro a b; unfold cellLE; infer_instance

instance : IsTrans Cell cellLE := by
  constructor; intro a b c hab hbc
  rcases hab with h | ⟨h1, h2⟩ <;> rcases hbc with h' | ⟨h1', h2'⟩ <;>
    unfold cellLE <;> omega

instance : IsAntisymm Cell cellLE := by
  constructor; intro a b hab hba
  rcases hab with h | ⟨h1, h2⟩ <;> rcases hba with h' | ⟨h1', h2'⟩ <;>
    [omega; omega; omega; skip]
  have : a.1 = b.1 := h1
  have : a.2 = b.2 := le_antisymm h2 h2'
  exact Prod.ext h1 this

instance : IsTotal Cell cellLE := by
  constructor; intro a b; unfold cellLE; omega

/-- A fixed enumeration of a finite set of cells (stands in for Python's set
iteration order).  Uses insertion sort so the kernel can evaluate it. -/
def cellList (s : Finset Cell) : List Cell :=
  Quot.liftOn s.val (fun l => List.insertionSort cellLE l) fun a b h => by
    refine List.eq_of_perm_of_sorted (r := cellLE) ?_ ?_ ?_
    · exact ((List.perm_insertionSort cellLE a).trans h).trans
        (List.perm_insertionSort cellLE b).symm
    · exact List.sorted_insertionSort cellLE a
    · exact List.sorted_insertionSort cellLE b

/-- Embeds `Sentence.__init__(cells, count)`: fresh `mines` and `safe` sets. -/
def Sentence.init (cells : Finset Cell) (count : Int) : Sentence :=
  ⟨cells, count, ∅, ∅⟩

/-- Embeds `Sentence.known_mines`: if `len(self.cells) == self.count` it adds a
generator object (not the cells!) to `self.mines`, then returns `self.mines`.
Returns the returned set together with the (possibly mutated) sentence. -/
def Sentence.known_mines (s : Sentence) : Finset PyObj × Sentence :=
  if (s.cells.card : Int) = s.count then
    let s' := { s with mines := insert PyObj.objGen s.mines }
    (s'.mines, s')
  else (s.mines, s)

/-- Embeds `Sentence.known_safes`: if `len(self.cells) == 0` it adds a generator
object to `self.safe`, then returns `self.safe`. -/
def Sentence.known_safes (s : Sentence) : Finset PyObj × Sentence :=
  if s.cells.card = 0 then
    let s' := { s with safe := insert PyObj.objGen s.safe }
    (s'.safe, s')
  else (s.safe, s)

/-- Embeds `Sentence.mark_mine(cell)`: when `cell in self.cells`, remove it,
decrement `count`, and add the result of `set.remove` — which is `None` —
to `self.mines`. -/
def Sentence.mark_mine (s : Sentence) (c : Cell) : Sentence :=
  if c ∈ s.cells then
    { s with cells := s.cells.erase c
             count := s.count - 1
             mines := insert PyObj.objNone s.mines }
  else s

/-- Embeds `Sentence.mark_safe(cell)`: when `cell in self.cells`, remove it and add
`None` (the result of `set.remove`) to `self.safe`. -/
def Sentence.mark_safe (s : Sentence) (c : Cell) : Sentence :=
  if c ∈ s.cells then
    { s with cells := s.cells.erase c
             safe := insert PyObj.objNone s.safe }
  else s

/-- The mutable state of a `MinesweeperAI` object. -/
structure MinesweeperAI : Type where
  height : Nat
  width : Nat
  potential_moves : List Cell
  moves_made : Finset Cell
  mines : Finset Cell
  safes : Finset Cell
  knowledge : List Sentence
deriving DecidableEq

/-- Embeds `MinesweeperAI.__init__(height, width)` (the `print` test lines are
I/O only and carry no state). -/
def mkAI (height width : Nat) : MinesweeperAI :=
  { height := height
    width := width
    potential_moves :=
      (List.range height).flatMap fun i =>
        (List.range width).map fun j => ((i : Int), (j : Int))
    moves_made := ∅
    mines := ∅
    safes := ∅
    knowledge := [] }

/-- Embeds `MinesweeperAI.mark_mine(cell)`: add to `mines`, remove from
`potential_moves` (the `try/except` makes a missing element a no-op, which is
also the behaviour of `List.erase`), and propagate to every sentence. -/
def MinesweeperAI.mark_mine (st : MinesweeperAI) (c : Cell) : MinesweeperAI :=
  { st with mines := insert c st.mines
            potential_moves := st.potential_moves.erase c
            knowledge := st.knowledge.map fun s => s.mark_mine c }

/-- Embeds `MinesweeperAI.mark_safe(cell)`: add to `safes` and propagate to every
sentence; `potential_moves` is not touched. -/
def MinesweeperAI.mark_safe (st : MinesweeperAI) (c : Cell) : MinesweeperAI :=
  { st with safes := insert c st.safes
            knowledge := st.knowledge.map fun s => s.mark_safe c }

/-- The neighbour set built inside `add_knowledge`: all `(i, j)` with
`i ∈ range(x-1, x+2)`, `j ∈ range(y-1, y+2)`, excluding the cell itself and
anything in `moves_made`, `safes` or `mines`.  The source performs **no
bounds check** here. -/
def MinesweeperAI.newSentenceCells (st : MinesweeperAI) (cell : Cell) : Finset Cell :=
  (([cell.1 - 1, cell.1, cell.1 + 1].flatMap fun i =>
      [cell.2 - 1, cell.2, cell.2 + 1].map fun j => ((i, j) : Cell)).filter
    fun t =>
      decide (t ≠ cell ∧ t ∉ st.moves_made ∧ t ∉ st.safes ∧ t ∉ st.mines)).toFinset

/-- The part of `add_knowledge(cell, count)` before the inference loop:
record the move, mark the cell safe, strip the cell from every sentence,
build the new sentence and append it.  Returns the updated state together
with the index of `new_sentence` in `knowledge`. -/
def MinesweeperAI.preLoop (st : MinesweeperAI) (cell : Cell) (count : Int) :
    MinesweeperAI × Nat :=
  let st1 := { st with moves_made := insert cell st.moves_made }
  let st2 := st1.mark_safe cell
  let st3 := { st2 with
    knowledge := st2.knowledge.map fun (s : Sentence) =>
      if cell ∈ s.cells then { s with cells := s.cells.erase cell } else s }
  let cs := st3.newSentenceCells cell
  ({ st3 with knowledge := st3.knowledge ++ [Sentence.init cs count] },
    st3.knowledge.length)

/-- Fold `MinesweeperAI.mark_safe` over a list of cells
(`for i in safe_cells: self.mark_safe(i)`). -/
def foldMarkSafe (st : MinesweeperAI) (cs : List Cell) : MinesweeperAI :=
  cs.foldl (fun a c => a.mark_safe c) st

/-- Fold `MinesweeperAI.mark_mine` over a list of cells
(`for i in new_cells: self.mark_mine(i)`). -/
def foldMarkMine (st : MinesweeperAI) (cs : List Cell) : MinesweeperAI :=
  cs.foldl (fun a c => a.mark_mine c) st

/-- One iteration of the `for sentence in self.knowledge` loop body of
`add_knowledge`, acting on the sentence at position `idx`; `newIdx` is the
position of the aliased `new_sentence` object. -/
def loopBody (st : MinesweeperAI) (idx newIdx : Nat) : MinesweeperAI :=
  match st.knowledge.get? idx, st.knowledge.get? newIdx with
  | some s, some ns =>
    if s.cells ⊆ ns.cells then
      let newCells := ns.cells \ s.cells
      let safeCells := ns.cells ∩ s.cells
      let newCount := ns.count - s.count
      let st1 := { st with knowledge := st.knowledge ++ [Sentence.init newCells newCount] }
      let st2 := foldMarkSafe st1 (cellList safeCells)
      if (newCells.card : Int) = newCount then foldMarkMine st2 (cellList newCells)
      else st2
    else if ns.cells ⊆ s.cells then
      let newCells := s.cells \ ns.cells
      let newCount := s.count - ns.count
      let st1 := { st with knowledge := st.knowledge ++ [Sentence.init newCells newCount] }
      if (newCells.card : Int) = newCount then foldMarkMine st1 (cellList newCells)
      else st1
    else st
  | _, _ => st

/-- State of the iteration of the inference loop: AI state, current iterator
index, and the index of `new_sentence`. -/
structure LoopSt : Type where
  st : MinesweeperAI
  idx : Nat
  newIdx : Nat
deriving DecidableEq

/-- The Python list iterator is exhausted exactly when the index has reached
the (current) length of `knowledge`. -/
def loopDone (l : LoopSt) : Bool :=
  l.st.knowledge.length ≤ l.idx

/-- One iteration of the inference loop. -/
def loopStep (l : LoopSt) : LoopSt :=
  { st := loopBody l.st l.idx l.newIdx, idx := l.idx + 1, newIdx := l.newIdx }

/-- Run the inference loop for at most `n` iterations (fuel). -/
def runLoop : Nat → LoopSt → LoopSt
  | 0, l => l
  | n + 1, l => if loopDone l then l else runLoop n (loopStep l)

/-- The loop state reached after `n` iterations of the inference loop of
`add_knowledge(cell, count)` started from `st`. -/
def addKnowledgeState (n : Nat) (st : MinesweeperAI) (cell : Cell) (count : Int) :
    LoopSt :=
  runLoop n ⟨(st.preLoop cell count).1, 0, (st.preLoop cell count).2⟩

/-- Embeds `MinesweeperAI.add_knowledge(cell, count)` with fuel `n` for the
inference loop: `some` final state if the loop exits within `n` iterations,
`none` otherwise. -/
def MinesweeperAI.add_knowledge (n : Nat) (st : MinesweeperAI) (cell : Cell)
    (count : Int) : Option MinesweeperAI :=
  let l := addKnowledgeState n st cell count
  if loopDone l then some l.st else none

/-- Embeds `MinesweeperAI.make_safe_move()`: scan `self.safes` (set iteration order
fixed as `Finset.toList`) for a cell not in `moves_made`; remove it from
`potential_moves` (missing element: caught exception, i.e. no-op) and return
it, else return `None`. -/
def MinesweeperAI.make_safe_move (st : MinesweeperAI) :
    Option (Cell × MinesweeperAI) :=
  match (cellList st.safes).find? (fun c => decide (c ∉ st.moves_made)) with
  | some c => some (c, { st with potential_moves := st.potential_moves.erase c })
  | none => none

/-- Embeds `MinesweeperAI.make_random_move()`: `random.choice(self.potential_moves)`
with the random draw supplied by oracle `k`; raises (returns `none`) exactly
when the list is empty, else removes and returns the chosen cell. -/
def MinesweeperAI.make_random_move (k : Nat) (st : MinesweeperAI) :
    Option (Cell × MinesweeperAI) :=
  match st.potential_moves.get? (k % st.potential_moves.length) with
  | some c => some (c, { st with potential_moves := st.potential_moves.erase c })
  | none => none

/-- Embeds `Minesweeper.nearby_mines(cell)` from the game class: number of in-bounds
neighbours of `cell` (excluding `cell` itself) that are mines; the true mine
layout is the finset `board`. -/
def Minesweeper.nearby_mines (board : Finset Cell) (height width : Nat)
    (cell : Cell) : Nat :=
  (([cell.1 - 1, cell.1, cell.1 + 1].flatMap fun i =>
      [cell.2 - 1, cell.2, cell.2 + 1].map fun j => ((i, j) : Cell)).filter
    fun t =>
      decide (t ≠ cell ∧ 0 ≤ t.1 ∧ t.1 < (height : Int) ∧ 0 ≤ t.2 ∧
        t.2 < (width : Int) ∧ t ∈ board)).length

/-- The bounds check of the game board (`0 <= i < height and 0 <= j < width`). -/
def inBounds (height width : Nat) (c : Cell) : Prop :=
  0 ≤ c.1 ∧ c.1 < (height : Int) ∧ 0 ≤ c.2 ∧ c.2 < (width : Int)

instance (height width : Nat) (c : Cell) : Decidable (inBounds height width c) := by
  unfold inBounds; infer_instance

/-- The full coordinate universe of a `height × width` board. -/
def boardUniverse (height width : Nat) : Finset Cell :=
  ((List.range height).flatMap fun i =>
    (List.range width).map fun j => ((i : Int), (j : Int))).toFinset

/-- A call `add_knowledge(cell, count)` is consistent with the true layout
`board` when the played cell is not a mine and `count` is the true number of
mines among the in-bounds neighbours of `cell`. -/
def consistentCall (board : Finset Cell) (height width : Nat) (cell : Cell)
    (count : Int) : Prop :=
  cell ∉ board ∧ count = (Minesweeper.nearby_mines board height width cell : Int)

instance (board : Finset Cell) (height width : Nat) (cell : Cell) (count : Int) :
    Decidable (consistentCall board height width cell count) := by
  unfold consistentCall; infer_instance

/-! Helper lemmas about the inference loop.

The key structural fact about `add_knowledge`'s loop: once the iterator has
passed the self-comparison of `new_sentence` (which empties its cell set and
appends an empty sentence), every further iteration compares two sentences
with empty cell sets, takes the first subset branch, and appends one more
empty sentence — so the iterator never catches up with the list. -/

/-- Enumerating the empty set of cells gives the empty list. -/
theorem cellList_empty : cellList (∅ : Finset Cell) = [] := rfl

/-- The loop is *stalled*: the iterator index is strictly inside the list,
`new_sentence` has an empty cell set, and so does every sentence the iterator
has yet to visit. -/
def stalled (l : LoopSt) : Prop :=
  l.idx < l.st.knowledge.length ∧
  (l.st.knowledge.get? l.newIdx).map Sentence.cells = some (∅ : Finset Cell) ∧
  ∀ s ∈ l.st.knowledge.drop l.idx, s.cells = (∅ : Finset Cell)

instance (l : LoopSt) : Decidable (stalled l) := by
  unfold stalled; infer_instance

/-- A stalled loop has not exited. -/
theorem stalled_not_done (l : LoopSt) (h : stalled l) : loopDone l = false := by
  have h1 := h.1
  simp only [loopDone, decide_eq_false_iff_not]
  omega

/-- One step of a stalled loop: it stays stalled and appends exactly one
sentence with an empty cell set and fresh internal sets. -/
theorem stalled_loopStep (l : LoopSt) (h : stalled l) :
    stalled (loopStep l) ∧
    ∃ c : Int, (loopStep l).st.knowledge =
      l.st.knowledge ++ [Sentence.init ∅ c] := by
  obtain ⟨hidx, hnew, hdrop⟩ := h
  have hs : l.st.knowledge.get? l.idx =
      some (l.st.knowledge.get ⟨l.idx, hidx⟩) := List.get?_eq_get hidx
  set s := l.st.knowledge.get ⟨l.idx, hidx⟩ with hsdef
  have hsmem : s ∈ l.st.knowledge.drop l.idx := by
    rw [List.drop_eq_get_cons hidx]
    exact List.mem_cons_self _ _
  have hscells : s.cells = ∅ := hdrop s hsmem
  obtain ⟨ns, hns, hnscells⟩ :
      ∃ ns, l.st.knowledge.get? l.newIdx = some ns ∧ ns.cells = ∅ := by
    cases hget : l.st.knowledge.get? l.newIdx with
    | none => rw [hget] at hnew; simp at hnew
    | some x =>
      rw [hget] at hnew
      simp only [Option.map_some', Option.some.injEq] at hnew
      exact ⟨x, rfl, hnew⟩
  have hnewlt : l.newIdx < l.st.knowledge.length := by
    by_contra hcon
    rw [List.get?_eq_none.2 (le_of_not_lt hcon)] at hns
    cases hns
  have hsub : s.cells ⊆ ns.cells := by rw [hscells, hnscells]
  have hbody : loopBody l.st l.idx l.newIdx =
      { l.st with knowledge :=
          l.st.knowledge ++ [Sentence.init ∅ (ns.count - s.count)] } := by
    unfold loopBody
    rw [hs, hns]
    simp only [if_pos hsub, hscells, hnscells, Finset.sdiff_empty,
      Finset.empty_inter, cellList_empty, foldMarkSafe, foldMarkMine,
      List.foldl_nil, ite_self, Finset.empty_subset, if_true]
  constructor
  · refine ⟨?_, ?_, ?_⟩
    · show l.idx + 1 < (loopBody l.st l.idx l.newIdx).knowledge.length
      rw [hbody]
      simp only [List.length_append, List.length_cons, List.length_nil]
      omega
    · show ((loopBody l.st l.idx l.newIdx).knowledge.get? l.newIdx).map
        Sentence.cells = some ∅
      rw [hbody]
      simp only
      rw [List.get?_append hnewlt, hns]
      simp [hnscells]
    · intro t ht
      show t.cells = ∅
      have : (loopBody l.st l.idx l.newIdx).knowledge.drop (l.idx + 1) =
          l.st.knowledge.drop (l.idx + 1) ++ [Sentence.init ∅ (ns.count - s.count)] := by
        rw [hbody]
        exact List.drop_append_of_le_length hidx
      rw [loopStep] at ht
      simp only at ht
      rw [this] at ht
      rcases List.mem_append.1 ht with h1 | h2
      · refine hdrop t ?_
        have hsub2 : l.st.knowledge.drop (l.idx + 1) ⊆ l.st.knowledge.drop l.idx := by
          rw [List.drop_eq_get_cons hidx]
          exact List.subset_cons_self _ _
        exact hsub2 h1
      · rw [List.mem_singleton.1 h2]
        rfl
  · exact ⟨ns.count - s.count, by rw [loopStep]; simp only; rw [hbody]⟩

/-- Running a stalled loop any number of steps keeps it stalled, and every
appended sentence has an empty cell set: any property `P` true of all current
sentences and of all empty-cell sentences is preserved. -/
theorem runLoop_stalled (P : Sentence → Prop)
    (hP : ∀ c : Int, P (Sentence.init ∅ c)) :
    ∀ (n : Nat) (l : LoopSt), stalled l → (∀ s ∈ l.st.knowledge, P s) →
      stalled (runLoop n l) ∧ ∀ s ∈ (runLoop n l).st.knowledge, P s := by
  intro n
  induction n with
  | zero => intro l h hl; exact ⟨h, hl⟩
  | succ n ih =>
    intro l h hl
    rw [runLoop, stalled_not_done l h]
    simp only [Bool.false_eq_true, if_false]
    obtain ⟨h', c, hc⟩ := stalled_loopStep l h
    refine ih (loopStep l) h' ?_
    intro t ht
    rw [hc] at ht
    rcases List.mem_append.1 ht with h1 | h2
    · exact hl t h1
    · rw [List.mem_singleton.1 h2]; exact hP c

/-- A loop that reaches a stalled state never exits. -/
theorem runLoop_not_done (n : Nat) (l : LoopSt) (h : stalled l) :
    loopDone (runLoop n l) = false :=
  stalled_not_done _
    (runLoop_stalled (fun _ => True) (fun _ => trivial) n l h fun _ _ => trivial).1

/-- Unfold one non-final loop iteration. -/
theorem runLoop_succ (n : Nat) (l : LoopSt) (h : loopDone l = false) :
    runLoop (n + 1) l = runLoop n (loopStep l) := by
  rw [runLoop, h]
  simp

/-- A loop that has exited stays put. -/
theorem runLoop_done_eq (n : Nat) (l : LoopSt) (h : loopDone l = true) :
    runLoop n l = l := by
  cases n with
  | zero => rfl
  | succ m => rw [runLoop, h]; simp

/-- Fuel composition for the loop runner. -/
theorem runLoop_add (m n : Nat) (l : LoopSt) :
    runLoop (m + n) l = runLoop n (runLoop m l) := by
  induction m generalizing l with
  | zero => rw [Nat.zero_add]; rfl
  | succ k ih =>
    by_cases h : loopDone l = true
    · calc runLoop (k + 1 + n) l = l := runLoop_done_eq _ _ h
        _ = runLoop n l := (runLoop_done_eq _ _ h).symm
        _ = runLoop n (runLoop (k + 1) l) := by rw [runLoop_done_eq (k + 1) l h]
    · have h' : loopDone l = false := by revert h; cases loopDone l <;> simp
      have harith : k + 1 + n = (k + n) + 1 := by omega
      rw [harith, runLoop_succ _ _ h', runLoop_succ _ _ h', ih]

/-- If the loop of `add_knowledge(cell, count)` is stalled after its first
iteration, the call never returns, whatever the fuel. -/
theorem add_knowledge_none_of_stalled (st : MinesweeperAI) (cell : Cell)
    (count : Int)
    (h0 : loopDone ⟨(st.preLoop cell count).1, 0, (st.preLoop cell count).2⟩ = false)
    (h1 : stalled (loopStep ⟨(st.preLoop cell count).1, 0, (st.preLoop cell count).2⟩)) :
    ∀ n, MinesweeperAI.add_knowledge n st cell count = none := by
  intro n
  have hdone : loopDone (addKnowledgeState n st cell count) = false := by
    cases n with
    | zero => exact h0
    | succ m =>
      rw [addKnowledgeState, runLoop_succ _ _ h0]
      exact runLoop_not_done m _ h1
  simp [MinesweeperAI.add_knowledge, hdone]

/-- C1 (code_bug): the specification claims every
`add_knowledge` call terminates in a bounded number of passes over the
knowledge base.  In fact the loop iterates over a list it appends to on every
later pass (the new sentence is compared with itself, emptying its cell set,
after which every sentence it meets satisfies a subset branch and appends
another empty sentence), so the very first call `add_knowledge((0, 0), 0)` on
a fresh 8×8 agent never returns, for any amount of fuel. -/
theorem add_knowledge_diverges :
    ∀ n : Nat, MinesweeperAI.add_knowledge n (mkAI 8 8) ((0 : Int), (0 : Int)) 0 = none :=
  add_knowledge_none_of_stalled _ _ _ (by decide) (by decide)

/-- C2 (code_bug): with the true layout placing the single mine at `(1, 1)`
on a 2×2 board, the call `add_knowledge((0, 0), 1)` is consistent with the
layout, yet after the first iteration of the inference loop the true mine
`(1, 1)` is in the agent's `safes` set — the loop compares the new sentence
with itself and marks every one of its cells safe regardless of the count. -/
theorem add_knowledge_marks_true_mine_safe :
    consistentCall {((1 : Int), (1 : Int))} 2 2 ((0 : Int), (0 : Int)) 1 ∧
    ((1 : Int), (1 : Int)) ∈ ({((1 : Int), (1 : Int))} : Finset Cell) ∧
    ((1 : Int), (1 : Int)) ∈
      (addKnowledgeState 1 (mkAI 2 2) ((0 : Int), (0 : Int)) 1).st.safes := by
  decide

/-- C3 (code_bug): during the same consistent call `add_knowledge((0, 0), 1)`
on a 2×2 board the knowledge base holds a sentence with `count > |cells|`
(the new sentence is emptied by the self-comparison while its count stays 1),
and the call itself never returns, so no post-call state satisfying the
invariant ever exists. -/
theorem add_knowledge_breaks_count_invariant :
    ((addKnowledgeState 1 (mkAI 2 2) ((0 : Int), (0 : Int)) 1).st.knowledge.any
      fun s => decide ((s.cells.card : Int) < s.count)) = true ∧
    ∀ n : Nat, MinesweeperAI.add_knowledge n (mkAI 2 2) ((0 : Int), (0 : Int)) 1 = none :=
  ⟨by decide, add_knowledge_none_of_stalled _ _ _ (by decide) (by decide)⟩

/-- Failing input for C4: a sentence with `count == 0` and a non-empty cell
set. -/
def c4s : Sentence := Sentence.init {((0 : Int), (0 : Int))} 0

/-- C4 (code_bug): the specification says `known_safes` returns `cells`
unchanged when `count == 0`.  The source tests `len(self.cells) == 0` instead
of `self.count == 0` and returns the (empty) accumulated `safe` attribute, so
for the sentence `{(0,0)} = 0` it returns the empty set, not the cells.  (The
purity part of the claim does hold at this input: the sentence is not
mutated.) -/
theorem known_safes_ignores_zero_count :
    c4s.count = 0 ∧ c4s.cells ≠ ∅ ∧
    (Sentence.known_safes c4s).1 = ∅ ∧
    (Sentence.known_safes c4s).1 ≠ c4s.cells.image PyObj.objCell ∧
    (Sentence.known_safes c4s).2 = c4s := by
  decide

/-- Failing input for C5: a sentence with `|cells| == count`. -/
def c5s : Sentence := Sentence.init {((0 : Int), (0 : Int))} 1

/-- C5 (code_bug): the specification says `known_mines` returns `cells`
unchanged when `|cells| == count`.  The source executes
`self.mines.add(i for i in self.cells)`, adding a single generator object
instead of the cells, and returns `self.mines`; for the sentence
`{(0,0)} = 1` the returned set is `{<generator>}`, which is neither the cell
set nor empty, and the sentence is mutated. -/
theorem known_mines_returns_generator :
    (c5s.cells.card : Int) = c5s.count ∧
    (Sentence.known_mines c5s).1 = {PyObj.objGen} ∧
    (Sentence.known_mines c5s).1 ≠ c5s.cells.image PyObj.objCell ∧
    (Sentence.known_mines c5s).1 ≠ ∅ ∧
    (Sentence.known_mines c5s).2 ≠ c5s := by
  decide

/-- C7 (code_bug): the specification says the new sentence's cell set
contains only neighbours within board bounds.  The source performs no bounds
check, so for `add_knowledge((0, 0), 1)` on a fresh 8×8 agent the appended
sentence contains the out-of-bounds coordinate `(-1, -1)`. -/
theorem add_knowledge_includes_out_of_bounds_neighbor :
    (((mkAI 8 8).preLoop ((0 : Int), (0 : Int)) 1).1.knowledge.any
      fun s => decide ((((-1 : Int)), ((-1 : Int))) ∈ s.cells)) = true ∧
    ¬ inBounds 8 8 ((-1 : Int), (-1 : Int)) := by
  decide

/-- Starting state for C6: a knowledge base already holding the strict-subset
pair `{(5,5),(5,6)} = 1 ⊂ {(5,5),(5,6),(5,7)} = 1`. -/
def c6Start : MinesweeperAI :=
  { mkAI 8 8 with knowledge :=
      [Sentence.init {((5 : Int), (5 : Int)), ((5 : Int), (6 : Int))} 1,
       Sentence.init
         {((5 : Int), (5 : Int)), ((5 : Int), (6 : Int)), ((5 : Int), (7 : Int))} 1] }

/-- C6 (code_bug): the specification says that whenever the knowledge base
holds two distinct sentences `A ⊂ B`, the inference step derives the sentence
`B − A = B.count − A.count`.  The source only compares sentences against the
one added by the current call, so with `{(5,5),(5,6)} = 1` and
`{(5,5),(5,6),(5,7)} = 1` already in the knowledge base, a call
`add_knowledge((0, 0), 0)` touching neither of them never produces the
derived sentence `{(5,7)} = 0`, at any point of its (non-terminating)
inference loop. -/
theorem subset_inference_not_derived :
    (Sentence.init {((5 : Int), (5 : Int)), ((5 : Int), (6 : Int))} 1 ∈
        c6Start.knowledge ∧
      Sentence.init
          {((5 : Int), (5 : Int)), ((5 : Int), (6 : Int)), ((5 : Int), (7 : Int))} 1 ∈
        c6Start.knowledge ∧
      ({((5 : Int), (5 : Int)), ((5 : Int), (6 : Int))} : Finset Cell) ⊂
        {((5 : Int), (5 : Int)), ((5 : Int), (6 : Int)), ((5 : Int), (7 : Int))}) ∧
    ∀ n : Nat,
      ((addKnowledgeState n c6Start ((0 : Int), (0 : Int)) 0).st.knowledge.all
        fun s =>
          !(decide (s.cells = {((5 : Int), (7 : Int))} ∧ s.count = 0))) = true := by
  refine ⟨by decide, ?_⟩
  have key : ∀ n : Nat,
      ∀ s ∈ (addKnowledgeState n c6Start ((0 : Int), (0 : Int)) 0).st.knowledge,
        ¬(s.cells = {((5 : Int), (7 : Int))} ∧ s.count = 0) := by
    intro n
    rcases Nat.lt_or_ge n 3 with h | h
    · interval_cases n <;> decide
    · obtain ⟨m, rfl⟩ : ∃ m, n = 3 + m := ⟨n - 3, by omega⟩
      have hcomp : addKnowledgeState (3 + m) c6Start ((0 : Int), (0 : Int)) 0 =
          runLoop m (addKnowledgeState 3 c6Start ((0 : Int), (0 : Int)) 0) := by
        rw [addKnowledgeState, addKnowledgeState, runLoop_add]
      rw [hcomp]
      refine (runLoop_stalled
        (fun s => ¬(s.cells = {((5 : Int), (7 : Int))} ∧ s.count = 0))
        ?_ m _ (by decide) (by decide)).2
      intro c hc
      exact absurd hc.1 (Finset.singleton_ne_empty _).symm
  intro n
  simp only [List.all_eq_true, Bool.not_eq_true', decide_eq_false_iff_not]
  exact key n

/-- The agent state after one `make_random_move` on a fresh 1×1 agent. -/
def c8s1 : MinesweeperAI :=
  match MinesweeperAI.make_random_move 0 (mkAI 1 1) with
  | some (_, s) => s
  | none => mkAI 1 1

/-- C8 counterexample: on a 1×1 board the first `make_random_move` returns
`(0, 0)`, after which `moves_made` and `mines` are still empty — so the
claimed candidate pool `universe − moves_made − mines` is non-empty — yet the
second call fails (`random.choice` on an empty list), because the code draws
from `potential_moves`, which excludes previously returned moves even though
they were never recorded in `moves_made`. -/
theorem make_random_move_exhaustion_counterexample :
    MinesweeperAI.make_random_move 0 (mkAI 1 1) =
      some (((0 : Int), (0 : Int)), c8s1) ∧
    MinesweeperAI.make_random_move 0 c8s1 = none ∧
    ((boardUniverse 1 1 \ c8s1.moves_made) \ c8s1.mines).Nonempty := by
  decide

/-- C8 (amended): `make_random_move` draws from `potential_moves` (the board
universe minus marked mines and minus previously returned moves), removes the
returned cell, never returns a known mine, and fails exactly when
`potential_moves` — not `universe − moves_made − mines` — is exhausted. -/
theorem make_random_move_draws_from_potential_moves (st : MinesweeperAI)
    (k : Nat) (hnd : st.potential_moves.Nodup)
    (hm : ∀ c ∈ st.mines, c ∉ st.potential_moves) :
    (MinesweeperAI.make_random_move k st = none ↔ st.potential_moves = []) ∧
    ∀ c st', MinesweeperAI.make_random_move k st = some (c, st') →
      c ∈ st.potential_moves ∧ c ∉ st.mines ∧
      st'.potential_moves = st.potential_moves.erase c ∧
      c ∉ st'.potential_moves := by
  constructor
  · constructor
    · intro h
      unfold MinesweeperAI.make_random_move at h
      cases hget : st.potential_moves.get? (k % st.potential_moves.length) with
      | none =>
        have hlen := List.get?_eq_none.1 hget
        cases hp : st.potential_moves with
        | nil => rfl
        | cons a l =>
          exfalso
          have hpos : 0 < st.potential_moves.length := by rw [hp]; simp
          have := Nat.mod_lt k hpos
          omega
      | some c0 => rw [hget] at h; cases h
    · intro h
      unfold MinesweeperAI.make_random_move
      rw [h]
      rfl
  · intro c st' h
    unfold MinesweeperAI.make_random_move at h
    cases hget : st.potential_moves.get? (k % st.potential_moves.length) with
    | none => rw [hget] at h; cases h
    | some c0 =>
      rw [hget] at h
      have h' : c0 = c ∧
          ({ st with potential_moves := st.potential_moves.erase c0 } :
            MinesweeperAI) = st' := by
        have h2 := h
        simp only [Option.some.injEq, Prod.mk.injEq] at h2
        exact h2
      obtain ⟨rfl, rfl⟩ := h'
      have hmem : c0 ∈ st.potential_moves := List.get?_mem hget
      refine ⟨hmem, fun hcm => hm c0 hcm hmem, rfl, fun habs => ?_⟩
      exact absurd ((hnd.mem_erase_iff).1 habs).1 (by simp)

/-- Witness instantiating `make_random_move_draws_from_potential_moves` at a
fresh 1×1 agent with oracle 0. -/
theorem make_random_move_draws_witness :
    ((0 : Int), (0 : Int)) ∈ (mkAI 1 1).potential_moves ∧
    ((0 : Int), (0 : Int)) ∉ (mkAI 1 1).mines := by
  have h := (make_random_move_draws_from_potential_moves (mkAI 1 1) 0
    (by decide) (by decide)).2 ((0 : Int), (0 : Int)) c8s1 (by decide)
  exact ⟨h.1, h.2.1⟩

/-- Embeds `Sentence.mark_mine` is idempotent: the second call finds the cell gone
and is a no-op. -/
theorem Sentence.mark_mine_twice (s : Sentence) (c : Cell) :
    (s.mark_mine c).mark_mine c = s.mark_mine c := by
  have h2 : c ∉ (s.mark_mine c).cells := by
    unfold Sentence.mark_mine
    by_cases h : c ∈ s.cells
    · simp [h, Finset.not_mem_erase]
    · simp [h]
  generalize hgen : s.mark_mine c = t at h2 ⊢
  unfold Sentence.mark_mine
  rw [if_neg h2]

/-- Embeds `Sentence.mark_safe` is idempotent. -/
theorem Sentence.mark_safe_twice (s : Sentence) (c : Cell) :
    (s.mark_safe c).mark_safe c = s.mark_safe c := by
  have h2 : c ∉ (s.mark_safe c).cells := by
    unfold Sentence.mark_safe
    by_cases h : c ∈ s.cells
    · simp [h, Finset.not_mem_erase]
    · simp [h]
  generalize hgen : s.mark_safe c = t at h2 ⊢
  unfold Sentence.mark_safe
  rw [if_neg h2]

/-- C9 (confirmed): calling the agent's `mark_mine` twice on the same cell
yields the same state as calling once, and likewise for `mark_safe`.  The
`potential_moves` list of a reachable agent has no duplicates (it is built
from distinct coordinates and only ever shrinks), which the hypothesis
records. -/
theorem mark_mine_mark_safe_idempotent (st : MinesweeperAI) (c : Cell)
    (hnd : st.potential_moves.Nodup) :
    (st.mark_mine c).mark_mine c = st.mark_mine c ∧
    (st.mark_safe c).mark_safe c = st.mark_safe c := by
  obtain ⟨h, w, pm, mm, mi, sa, kb⟩ := st
  constructor
  · simp only [MinesweeperAI.mark_mine, MinesweeperAI.mk.injEq]
    refine ⟨trivial, trivial, ?_, trivial, Finset.insert_idem c mi, trivial, ?_⟩
    · refine List.erase_of_not_mem fun hmem => ?_
      exact absurd ((hnd.mem_erase_iff).1 hmem).1 (by simp)
    · rw [List.map_map]
      exact List.map_congr_left fun s _ => Sentence.mark_mine_twice s c
  · simp only [MinesweeperAI.mark_safe, MinesweeperAI.mk.injEq]
    refine ⟨trivial, trivial, trivial, trivial, trivial, Finset.insert_idem c sa, ?_⟩
    rw [List.map_map]
    exact List.map_congr_left fun s _ => Sentence.mark_safe_twice s c

/-- Witness instantiating `mark_mine_mark_safe_idempotent` at a fresh 2×2
agent and the cell `(0, 0)`. -/
theorem mark_idempotent_witness :
    ((mkAI 2 2).mark_mine ((0 : Int), (0 : Int))).mark_mine ((0 : Int), (0 : Int)) =
      (mkAI 2 2).mark_mine ((0 : Int), (0 : Int)) ∧
    ((mkAI 2 2).mark_safe ((0 : Int), (0 : Int))).mark_safe ((0 : Int), (0 : Int)) =
      (mkAI 2 2).mark_safe ((0 : Int), (0 : Int)) :=
  mark_mine_mark_safe_idempotent (mkAI 2 2) ((0 : Int), (0 : Int)) (by decide)

/-- A call to one of the methods that the C10 scenario allows: the two move
selectors, plus the two marking calls (of which only `mark_mine` touches
`potential_moves`). -/
inductive AgentMove : Type where
  | safeMove : AgentMove
  | randMove (k : Nat) : AgentMove
  | mineMark (c : Cell) : AgentMove
  | safeMark (c : Cell) : AgentMove
deriving DecidableEq

/-- Execute one agent call, returning the cell it handed back (selectors
only) and the updated state. -/
def applyMove (st : MinesweeperAI) : AgentMove → Option Cell × MinesweeperAI
  | AgentMove.safeMove =>
    match st.make_safe_move with
    | some (c, st') => (some c, st')
    | none => (none, st)
  | AgentMove.randMove k =>
    match MinesweeperAI.make_random_move k st with
    | some (c, st') => (some c, st')
    | none => (none, st)
  | AgentMove.mineMark c => (none, st.mark_mine c)
  | AgentMove.safeMark c => (none, st.mark_safe c)

/-- Execute a sequence of agent calls, collecting every returned cell in
order. -/
def runMoves (st : MinesweeperAI) : List AgentMove → List Cell × MinesweeperAI
  | [] => ([], st)
  | m :: ms =>
    ((applyMove st m).1.toList ++ (runMoves (applyMove st m).2 ms).1,
      (runMoves (applyMove st m).2 ms).2)

/-- C10 counterexample: on a 1×1 board, after `mark_safe((0,0))` two
consecutive `make_safe_move()` calls both return `(0, 0)` — the selector
scans `safes − moves_made`, and nothing ever puts the returned cell into
`moves_made`, so removal from `potential_moves` does not prevent the repeat
(the second removal simply raises and is swallowed). -/
theorem make_safe_move_repeats_counterexample :
    (runMoves (mkAI 1 1)
      [AgentMove.safeMark ((0 : Int), (0 : Int)), AgentMove.safeMove,
        AgentMove.safeMove]).1 =
      [((0 : Int), (0 : Int)), ((0 : Int), (0 : Int))] ∧
    ¬ (runMoves (mkAI 1 1)
      [AgentMove.safeMark ((0 : Int), (0 : Int)), AgentMove.safeMove,
        AgentMove.safeMove]).1.Nodup := by
  decide

/-- Any single call keeps `potential_moves` duplicate-free, only shrinks it,
and removes any cell it returns from it. -/
theorem applyMove_potential (st : MinesweeperAI) (m : AgentMove)
    (hnd : st.potential_moves.Nodup) :
    (applyMove st m).2.potential_moves.Nodup ∧
    (∀ x ∈ (applyMove st m).2.potential_moves, x ∈ st.potential_moves) ∧
    ∀ c, (applyMove st m).1 = some c → c ∉ (applyMove st m).2.potential_moves := by
  cases m with
  | safeMove =>
    simp only [applyMove]
    cases hm : st.make_safe_move with
    | none => exact ⟨hnd, fun x hx => hx, fun c hc => by cases hc⟩
    | some p =>
      obtain ⟨c0, st1⟩ := p
      have hst1 : st1 =
          { st with potential_moves := st.potential_moves.erase c0 } := by
        unfold MinesweeperAI.make_safe_move at hm
        cases hfind : (cellList st.safes).find?
            (fun c => decide (c ∉ st.moves_made)) with
        | none => rw [hfind] at hm; cases hm
        | some c1 =>
          rw [hfind] at hm
          have h2 := hm
          simp only [Option.some.injEq, Prod.mk.injEq] at h2
          rw [← h2.2, h2.1]
      subst hst1
      refine ⟨hnd.erase c0, fun x hx => List.erase_subset _ _ hx, ?_⟩
      intro c hc
      have : c = c0 := by
        have h3 : c0 = c := by simpa using hc
        exact h3.symm
      subst this
      intro habs
      exact absurd ((hnd.mem_erase_iff).1 habs).1 (by simp)
  | randMove k =>
    simp only [applyMove]
    cases hm : MinesweeperAI.make_random_move k st with
    | none => exact ⟨hnd, fun x hx => hx, fun c hc => by cases hc⟩
    | some p =>
      obtain ⟨c0, st1⟩ := p
      have hst1 : st1 =
          { st with potential_moves := st.potential_moves.erase c0 } := by
        unfold MinesweeperAI.make_random_move at hm
        cases hget : st.potential_moves.get? (k % st.potential_moves.length) with
        | none => rw [hget] at hm; cases hm
        | some c1 =>
          rw [hget] at hm
          have h2 := hm
          simp only [Option.some.injEq, Prod.mk.injEq] at h2
          rw [← h2.2, h2.1]
      subst hst1
      refine ⟨hnd.erase c0, fun x hx => List.erase_subset _ _ hx, ?_⟩
      intro c hc
      have : c = c0 := by
        have h3 : c0 = c := by simpa using hc
        exact h3.symm
      subst this
      intro habs
      exact absurd ((hnd.mem_erase_iff).1 habs).1 (by simp)
  | mineMark c =>
    exact ⟨hnd.erase c, fun x hx => List.erase_subset _ _ hx,
      fun c' hc' => by cases hc'⟩
  | safeMark c =>
    exact ⟨hnd, fun x hx => hx, fun c' hc' => by cases hc'⟩

/-- Running any sequence of calls only shrinks `potential_moves` and keeps it
duplicate-free. -/
theorem runMoves_potential (ms : List AgentMove) :
    ∀ st : MinesweeperAI, st.potential_moves.Nodup →
      (∀ x ∈ (runMoves st ms).2.potential_moves, x ∈ st.potential_moves) ∧
      (runMoves st ms).2.potential_moves.Nodup := by
  induction ms with
  | nil => exact fun st h => ⟨fun x hx => hx, h⟩
  | cons m ms ih =>
    intro st h
    obtain ⟨hnd1, hsub1, _⟩ := applyMove_potential st m h
    obtain ⟨hsub2, hnd2⟩ := ih (applyMove st m).2 hnd1
    exact ⟨fun x hx => hsub1 x (hsub2 x hx), hnd2⟩

/-- C10 (amended): each selector does remove the cell it returns from
`potential_moves`, and since `make_random_move` draws only from
`potential_moves`, it never returns a cell previously returned by either
selector; but `make_safe_move` selects from `safes − moves_made`, not from
`potential_moves`, so it can return the same cell twice
(see the counterexample). -/
theorem random_move_never_repeats (ms : List AgentMove) (st : MinesweeperAI)
    (hnd : st.potential_moves.Nodup) :
    (∀ c ∈ (runMoves st ms).1, c ∉ (runMoves st ms).2.potential_moves) ∧
    ∀ k c st', MinesweeperAI.make_random_move k (runMoves st ms).2 =
        some (c, st') → c ∉ (runMoves st ms).1 := by
  have main : ∀ (ms : List AgentMove) (st : MinesweeperAI),
      st.potential_moves.Nodup →
      ∀ c ∈ (runMoves st ms).1, c ∉ (runMoves st ms).2.potential_moves := by
    intro ms
    induction ms with
    | nil =>
      intro st h c hc
      simp [runMoves] at hc
    | cons m ms ih =>
      intro st h c hc
      obtain ⟨hnd1, hsub1, hout⟩ := applyMove_potential st m h
      simp only [runMoves] at hc ⊢
      rcases List.mem_append.1 hc with h1 | h2
      · have hfst : (applyMove st m).1 = some c := by
          cases ho : (applyMove st m).1 with
          | none => rw [ho] at h1; cases h1
          | some x =>
            rw [ho] at h1
            have hcx : c = x := by simpa using h1
            subst hcx
            rfl
        intro hmem
        exact hout c hfst
          ((runMoves_potential ms (applyMove st m).2 hnd1).1 c hmem)
      · exact ih (applyMove st m).2 hnd1 c h2
  refine ⟨main ms st hnd, ?_⟩
  intro k c st' hcall
  have hcpot : c ∈ (runMoves st ms).2.potential_moves := by
    unfold MinesweeperAI.make_random_move at hcall
    cases hget : (runMoves st ms).2.potential_moves.get?
        (k % (runMoves st ms).2.potential_moves.length) with
    | none => rw [hget] at hcall; cases hcall
    | some c0 =>
      rw [hget] at hcall
      have h2 := hcall
      simp only [Option.some.injEq, Prod.mk.injEq] at h2
      rw [← h2.1]
      exact List.get?_mem hget
  intro hmem
  exact main ms st hnd c hmem hcpot

/-- The agent state after one `make_random_move` on a fresh 2×2 agent. -/
def c10St : MinesweeperAI :=
  match MinesweeperAI.make_random_move 0 (mkAI 2 2) with
  | some (_, s) => s
  | none => mkAI 2 2

/-- Witness instantiating `random_move_never_repeats` on the empty call
sequence from a fresh 2×2 agent, with the successful draw
`make_random_move 0` returning `(0, 0)`. -/
theorem random_move_never_repeats_witness :
    ((0 : Int), (0 : Int)) ∉ (runMoves (mkAI 2 2) []).1 :=
  (random_move_never_repeats [] (mkAI 2 2) (by decide)).2 0
    ((0 : Int), (0 : Int)) c10St (by decide)
